import Mathlib

/-!
Shallow embedding of the retrieval core of the `chatbot` repository:
the TF-IDF vector store (`vector_store.py`) and the document chunker
(`document_processor.py`).  Text is modelled as `List Char`, Python floats
as real numbers, Python dicts as association lists in key-insertion order,
and Python sets as duplicate-free lists in insertion order.  Recursions that
consume a suffix of the input use an explicit fuel argument (initialised to
`length + 1`, which always suffices) so that every definition reduces in the
kernel.
-/

/-- Python whitespace, as matched by `str.strip()` and the regex class `\s`
on ASCII text. -/
def isPySpace (c : Char) : Bool :=
  c = ' ' || c = '\t' || c = '\n' || c = '\r' || c = '\x0b' || c = '\x0c'

/-- Python `str.strip()`: drop leading and trailing whitespace. -/
def pyStrip (l : List Char) : List Char :=
  ((l.dropWhile isPySpace).reverse.dropWhile isPySpace).reverse

/-- A regex word character (`\w` for ASCII): letter, digit or underscore. -/
def isWordChar (c : Char) : Bool :=
  c.isAlpha || c.isDigit || c = '_'

/-- Worker for `pyTokenize`: scans the (already lowercased) text for maximal
alphabetic runs; a run is a match of `\b[a-zA-Z]+\b` exactly when the
characters adjacent to it on both sides (when they exist) are not word
characters.  `prevWord` records whether the character just before the
current position is a word character. -/
def tokenizeGo : Nat → Bool → List Char → List (List Char)
  | 0, _, _ => []
  | _ + 1, _, [] => []
  | fuel + 1, prevWord, c :: rest =>
    if c.isAlpha then
      let run := c :: rest.takeWhile Char.isAlpha
      let rest2 := rest.dropWhile Char.isAlpha
      let keep := !prevWord && (match rest2.head? with
        | some d => !isWordChar d
        | none => true)
      (if keep then [run] else []) ++ tokenizeGo fuel true rest2
    else
      tokenizeGo fuel (isWordChar c) rest

/-- `VectorStore._tokenize`: lowercase, take the matches of
`\b[a-zA-Z]+\b`, and keep only tokens longer than 2 characters. -/
def pyTokenize (text : List Char) : List (List Char) :=
  (tokenizeGo (text.length + 1) false (text.map Char.toLower)).filter
    (fun t => 2 < t.length)

/-- Worker for `pyDedup`; `seen` accumulates the elements already kept. -/
def pyDedupGo [DecidableEq α] : List α → List α → List α
  | _, [] => []
  | seen, x :: xs =>
    if x ∈ seen then pyDedupGo seen xs else x :: pyDedupGo (x :: seen) xs

/-- Deduplication keeping the first occurrence of each element, in order:
the observable content of a Python `set`/`dict` built by iterated insertion. -/
def pyDedup [DecidableEq α] (l : List α) : List α :=
  pyDedupGo [] l

/-- Association-list lookup; models Python `dict` access `d[k]` / `k in d`. -/
def alookup [DecidableEq α] (k : α) : List (α × β) → Option β
  | [] => none
  | (k', v) :: rest => if k = k' then some v else alookup k rest

/-- Term frequency of one token: `count / total` from
`VectorStore._calculate_tf`. -/
noncomputable def tfValue (tokens : List (List Char)) (t : List Char) : ℝ :=
  (tokens.count t : ℝ) / (tokens.length : ℝ)

/-- `VectorStore._calculate_tf`: the token-frequency dict, keys in first
occurrence order. -/
noncomputable def calculateTf (tokens : List (List Char)) :
    List (List Char × ℝ) :=
  (pyDedup tokens).map (fun t => (t, tfValue tokens t))

/-- `VectorStore._get_tfidf_vector`: weight each token present in the IDF
table by `tf * idf`; tokens unknown to the table are skipped. -/
noncomputable def getTfidfVector (idf : List (List Char × ℝ))
    (tokens : List (List Char)) : List (List Char × ℝ) :=
  ((pyDedup tokens).filter (fun t => (alookup t idf).isSome)).map
    (fun t => (t, tfValue tokens t * (alookup t idf).getD 0))

/-- Page provenance stored in chunk metadata: a page number, or the literal
string `"N/A"` used by the fallback branch of `create_chunks`. -/
inductive PageTag
  | page (n : Nat)
  | na
deriving DecidableEq

/-- The metadata dict attached to a chunk by
`DocumentProcessor.create_chunks`. -/
structure Metadata where
  filename : List Char
  page : PageTag
  chunkLength : Nat
deriving DecidableEq

/-- An input document for `add_documents`: a dict with `content` and
`metadata` fields, as produced by `create_chunks`. -/
structure RawDoc where
  content : List Char
  metadata : Metadata
deriving DecidableEq

/-- A stored document entry of the vector store.  The source also stores a
fresh `uuid4` string in an `id` field; that external randomness is not
modelled (no claim mentions identifiers). -/
structure Doc where
  content : List Char
  metadata : Metadata
  tokens : List (List Char)
deriving DecidableEq

/-- The token set of a stored document as used by `_calculate_idf`:
`set(self._tokenize(doc['content']))`. -/
def docTokenSet (d : Doc) : List (List Char) :=
  pyDedup (pyTokenize d.content)

/-- One `Counter` increment: bump the count of `t`, inserting it with count 1
at the end if absent. -/
def bumpCount [DecidableEq α] (t : α) : List (α × Nat) → List (α × Nat)
  | [] => [(t, 1)]
  | (k, c) :: rest =>
    if k = t then (k, c + 1) :: rest else (k, c) :: bumpCount t rest

/-- The `term_doc_count` Counter of `_calculate_idf`: for each document,
bump every token of its token set once. -/
def termDocCount (docs : List Doc) : List (List Char × Nat) :=
  docs.foldl (fun acc d => (docTokenSet d).foldl (fun a t => bumpCount t a) acc) []

/-- The dict comprehension of `_calculate_idf`:
`{term: log(total_docs / count) for term, count in term_doc_count.items()}`. -/
noncomputable def calculateIdf (docs : List Doc) : List (List Char × ℝ) :=
  (termDocCount docs).map
    (fun p => (p.1, Real.log ((docs.length : ℝ) / (p.2 : ℝ))))

/-- `VectorStore._calculate_idf` as a whole: with no documents it returns
early and leaves `idf_scores` unchanged, otherwise it replaces them. -/
noncomputable def calculateIdfStep (docs : List Doc)
    (oldIdf : List (List Char × ℝ)) : List (List Char × ℝ) :=
  if docs.isEmpty then oldIdf else calculateIdf docs

/-- In-memory state of a `VectorStore`. -/
structure StoreState where
  documents : List Doc
  vocabulary : List (List Char)
  idf_scores : List (List Char × ℝ)

/-- `self.vocabulary.update(tokens)`: set insertion of each token. -/
def insertVocab (voc : List (List Char)) (toks : List (List Char)) :
    List (List Char) :=
  toks.foldl (fun v t => if t ∈ v then v else v ++ [t]) voc

/-- `VectorStore.add_documents` minus the persistence call: rejects an empty
batch and a batch whose every `content` is blank after stripping; otherwise
appends the valid entries, updates the vocabulary and recomputes IDF.
Returns the new state and the boolean result. -/
noncomputable def addDocuments (s : StoreState) (batch : List RawDoc) :
    StoreState × Bool :=
  if batch.isEmpty then (s, false)
  else
    let valid := batch.filter (fun d => !(pyStrip d.content).isEmpty)
    if valid.isEmpty then (s, false)
    else
      let newEntries :=
        valid.map (fun d => Doc.mk d.content d.metadata (pyTokenize d.content))
      let newDocs := s.documents ++ newEntries
      let newVocab := newEntries.foldl (fun v e => insertVocab v e.tokens) s.vocabulary
      (StoreState.mk newDocs newVocab (calculateIdfStep newDocs s.idf_scores), true)

/-- The persisted snapshot record written by `_save_data`:
`{'documents': ..., 'vocabulary': list(...), 'idf_scores': ...}`. -/
structure Snapshot where
  documents : List Doc
  vocabulary : List (List Char)
  idf_scores : List (List Char × ℝ)

/-- Serialize the in-memory state to a snapshot. -/
def mkSnapshot (s : StoreState) : Snapshot :=
  Snapshot.mk s.documents s.vocabulary s.idf_scores

/-- `VectorStore._load_data`: rebuild the in-memory state from a snapshot
(`set(...)` of the vocabulary list). -/
def loadSnapshot (snap : Snapshot) : StoreState :=
  StoreState.mk snap.documents (pyDedup snap.vocabulary) snap.idf_scores

/-- `VectorStore._save_data` against a file system modelled by `writeOk`
(whether the snapshot file is writable) and `fs` (its current content).
The `except` branch of the source only logs: a failed write leaves the file
as it was and signals nothing to the caller. -/
def saveData (writeOk : Bool) (fs : Option Snapshot) (s : StoreState) :
    Option Snapshot :=
  if writeOk then some (mkSnapshot s) else fs

/-- `add_documents` together with its `_save_data` call, threading the
modelled file system.  The boolean result is computed exactly as in the
source, independently of whether the write succeeded. -/
noncomputable def addDocumentsFS (writeOk : Bool) (fs : Option Snapshot)
    (s : StoreState) (batch : List RawDoc) :
    StoreState × Option Snapshot × Bool :=
  let r := addDocuments s batch
  if r.2 then (r.1, saveData writeOk fs r.1, true) else (r.1, fs, false)

/-- `VectorStore._calculate_cosine_similarity`: dot product over the union of
the key sets divided by the product of the Euclidean norms, with 0 for an
empty union and 0 when either magnitude is 0. -/
noncomputable def calculateCosineSimilarity (v1 v2 : List (List Char × ℝ)) : ℝ :=
  let allTerms := pyDedup (v1.map Prod.fst ++ v2.map Prod.fst)
  if allTerms.isEmpty then 0
  else
    let dot := (allTerms.map
      (fun t => (alookup t v1).getD 0 * (alookup t v2).getD 0)).sum
    let mag1 := Real.sqrt ((v1.map (fun p => p.2 ^ 2)).sum)
    let mag2 := Real.sqrt ((v2.map (fun p => p.2 ^ 2)).sum)
    if mag1 = 0 ∨ mag2 = 0 then 0 else dot / (mag1 * mag2)

/-- One ranked result of `similarity_search`. -/
structure SearchResult where
  content : List Char
  metadata : Metadata
  score : ℝ

/-- The result-collecting loop of `similarity_search`: score every stored
document against the query vector and keep those with similarity `> 0`. -/
noncomputable def collectSimilarities (idf : List (List Char × ℝ))
    (qv : List (List Char × ℝ)) : List Doc → List SearchResult
  | [] => []
  | d :: ds =>
    let sim := calculateCosineSimilarity qv (getTfidfVector idf d.tokens)
    if 0 < sim then
      SearchResult.mk d.content d.metadata sim :: collectSimilarities idf qv ds
    else collectSimilarities idf qv ds

/-- `collectSimilarities` instrumented with the position of each document in
the store, used to state order-stability of the ranking. -/
noncomputable def collectSimilaritiesIdx (idf : List (List Char × ℝ))
    (qv : List (List Char × ℝ)) : Nat → List Doc → List (Nat × SearchResult)
  | _, [] => []
  | n, d :: ds =>
    let sim := calculateCosineSimilarity qv (getTfidfVector idf d.tokens)
    if 0 < sim then
      (n, SearchResult.mk d.content d.metadata sim)
        :: collectSimilaritiesIdx idf qv (n + 1) ds
    else collectSimilaritiesIdx idf qv (n + 1) ds

/-- Insert an element into a list sorted by `f` in descending order, before
the first element with a score not larger than its own. -/
noncomputable def insertDescBy (f : α → ℝ) (x : α) : List α → List α
  | [] => [x]
  | y :: ys => if f x < f y then y :: insertDescBy f x ys else x :: y :: ys

/-- Stable descending sort by `f`; models
`similarities.sort(key=lambda x: x['score'], reverse=True)`.  A stable sort
is extensionally determined by its comparator, so this insertion sort has
the same observable behaviour as Python's Timsort here. -/
noncomputable def sortDescBy (f : α → ℝ) : List α → List α
  | [] => []
  | x :: xs => insertDescBy f x (sortDescBy f xs)

/-- `VectorStore.similarity_search`. -/
noncomputable def similaritySearch (s : StoreState) (query : List Char)
    (topK : Nat) : List SearchResult :=
  if (pyStrip query).isEmpty then []
  else if s.documents.isEmpty then []
  else
    let queryTokens := pyTokenize query
    if queryTokens.isEmpty then []
    else
      let queryTfidf := getTfidfVector s.idf_scores queryTokens
      (sortDescBy (fun r => r.score)
        (collectSimilarities s.idf_scores queryTfidf s.documents)).take topK

/-- `similarity_search` with each kept result paired with the index of its
source document in `documents` (its insertion position). -/
noncomputable def similaritySearchIdx (s : StoreState) (query : List Char)
    (topK : Nat) : List (Nat × SearchResult) :=
  if (pyStrip query).isEmpty then []
  else if s.documents.isEmpty then []
  else
    let queryTokens := pyTokenize query
    if queryTokens.isEmpty then []
    else
      let queryTfidf := getTfidfVector s.idf_scores queryTokens
      (sortDescBy (fun p => p.2.score)
        (collectSimilaritiesIdx s.idf_scores queryTfidf 0 s.documents)).take topK

/-- Number of stored documents whose token set contains `t`. -/
def dfCount (docs : List Doc) (t : List Char) : Nat :=
  (docs.filter (fun d => decide (t ∈ docTokenSet d))).length

/-- Sentence-ending punctuation of the split pattern `(?<=[.!?])\s+`. -/
def isSentEnd (c : Char) : Bool :=
  c = '.' || c = '!' || c = '?'

/-- Whether the segment accumulated so far (in reverse) ends with sentence
punctuation, i.e. the lookbehind `(?<=[.!?])` holds at the current position. -/
def endsSentence (acc : List Char) : Bool :=
  match acc with
  | [] => false
  | c :: _ => isSentEnd c

/-- Worker for `sentenceSplit`: splits at every whitespace run immediately
preceded by `.`, `!` or `?`, consuming the whole run, exactly as
`re.split(r'(?<=[.!?])\s+', text)` does. -/
def sentenceSplitGo : Nat → List Char → List Char → List (List Char)
  | 0, acc, l => [acc.reverse ++ l]
  | _ + 1, acc, [] => [acc.reverse]
  | fuel + 1, acc, c :: rest =>
    if isPySpace c && endsSentence acc then
      acc.reverse :: sentenceSplitGo fuel [] (rest.dropWhile isPySpace)
    else
      sentenceSplitGo fuel (c :: acc) rest

/-- `re.split(r'(?<=[.!?])\s+', text)` from `_split_text_into_chunks` and
`_get_overlap_text`. -/
def sentenceSplit (text : List Char) : List (List Char) :=
  sentenceSplitGo (text.length + 1) [] text

/-- `DocumentProcessor._get_overlap_text`: the whole text when it fits in the
overlap window, else the trailing sentence of the window when the window
contains a sentence boundary, else the raw character suffix. -/
def getOverlapText (chunkOverlap : Nat) (text : List Char) : List Char :=
  if text.length ≤ chunkOverlap then text
  else
    let tail := text.drop (text.length - chunkOverlap)
    let sentences := sentenceSplit tail
    if 1 < sentences.length then
      match sentences.getLast? with
      | some lastSeg => if lastSeg.isEmpty then tail else lastSeg
      | none => tail
    else tail

/-- Loop state of `_split_text_into_chunks`: the emitted chunks, the current
chunk buffer, and the running `current_length` counter. -/
structure ChunkAcc where
  chunks : List (List Char)
  buf : List Char
  buflen : Nat

/-- One iteration of the sentence loop of `_split_text_into_chunks`. -/
def chunkStep (chunkSize chunkOverlap : Nat) (st : ChunkAcc)
    (sentence : List Char) : ChunkAcc :=
  let s := pyStrip sentence
  if s.isEmpty then st
  else if chunkSize < st.buflen + s.length && !st.buf.isEmpty then
    let newBuf := getOverlapText chunkOverlap st.buf ++ ' ' :: s
    ChunkAcc.mk (st.chunks ++ [pyStrip st.buf]) newBuf newBuf.length
  else
    let newBuf := if st.buf.isEmpty then s else st.buf ++ ' ' :: s
    ChunkAcc.mk st.chunks newBuf (st.buflen + s.length + 1)

/-- `DocumentProcessor._split_text_into_chunks`. -/
def splitTextIntoChunks (chunkSize chunkOverlap : Nat) (text : List Char) :
    List (List Char) :=
  if text.isEmpty then []
  else
    let st := (sentenceSplit text).foldl (chunkStep chunkSize chunkOverlap)
      (ChunkAcc.mk [] [] 0)
    if (pyStrip st.buf).isEmpty then st.chunks else st.chunks ++ [pyStrip st.buf]

/-- Parse a nonempty digit run as a decimal number (`int(pages[i])`). -/
def digitsToNat (ds : List Char) : Nat :=
  ds.foldl (fun n d => 10 * n + (d.toNat - '0'.toNat)) 0

/-- Try to match the page marker `\[PAGE (\d+)\]` at the head of the text,
returning the page number and the remaining text. -/
def matchMarker : List Char → Option (Nat × List Char)
  | '[' :: 'P' :: 'A' :: 'G' :: 'E' :: ' ' :: rest =>
    let ds := rest.takeWhile Char.isDigit
    (match ds, rest.dropWhile Char.isDigit with
      | [], _ => none
      | _ :: _, ']' :: r3 => some (digitsToNat ds, r3)
      | _ :: _, _ => none)
  | _ => none

/-- Worker for `pageSplit`: `cur = none` while scanning the text before the
first marker (discarded by the loop in `create_chunks`), `cur = some n`
while collecting the region text that follows marker `n`. -/
def pageSplitGo : Nat → Option Nat → List Char → List Char →
    List (Nat × List Char)
  | 0, cur, seg, l =>
    (match cur with | none => [] | some n => [(n, seg.reverse ++ l)])
  | _ + 1, cur, seg, [] =>
    (match cur with | none => [] | some n => [(n, seg.reverse)])
  | fuel + 1, cur, seg, c :: rest =>
    match matchMarker (c :: rest) with
    | some (n, r2) =>
      (match cur with | none => [] | some m => [(m, seg.reverse)])
        ++ pageSplitGo fuel (some n) [] r2
    | none => pageSplitGo fuel cur (c :: seg) rest

/-- The `(page number, region text)` pairs traversed by the loop of
`create_chunks` over `re.split(r'\[PAGE (\d+)\]', text)`. -/
def pageSplit (text : List Char) : List (Nat × List Char) :=
  pageSplitGo (text.length + 1) none [] text

/-- The chunks produced from the page-marker regions by the first loop of
`create_chunks`: each nonblank region is chunked, and chunks whose stripped
content is at most 50 characters are discarded. -/
def regionChunks (chunkSize chunkOverlap : Nat) (text fname : List Char) :
    List RawDoc :=
  (pageSplit text).flatMap (fun pr =>
    let pt := pyStrip pr.2
    if pt.isEmpty then []
    else
      ((splitTextIntoChunks chunkSize chunkOverlap pt).filter
        (fun c => 50 < (pyStrip c).length)).map
        (fun c => RawDoc.mk (pyStrip c)
          (Metadata.mk fname (PageTag.page pr.1) c.length)))

/-- The fallback branch of `create_chunks`: chunk the entire text and tag
every retained chunk with page `"N/A"`. -/
def fallbackChunks (chunkSize chunkOverlap : Nat) (text fname : List Char) :
    List RawDoc :=
  ((splitTextIntoChunks chunkSize chunkOverlap text).filter
    (fun c => 50 < (pyStrip c).length)).map
    (fun c => RawDoc.mk (pyStrip c) (Metadata.mk fname PageTag.na c.length))

/-- `DocumentProcessor.create_chunks`. -/
def createChunks (chunkSize chunkOverlap : Nat) (text fname : List Char) :
    List RawDoc :=
  if text.isEmpty then []
  else
    let chunks := regionChunks chunkSize chunkOverlap text fname
    if chunks.isEmpty then fallbackChunks chunkSize chunkOverlap text fname
    else chunks

/-- Length of the longest string that is both a suffix of `a` and a prefix of
`b`: how many characters of content the tail of `a` and the head of `b`
share. -/
def sharedOverlapLen (a b : List Char) : Nat :=
  Nat.findGreatest (fun n => b.take n = a.drop (a.length - n))
    (min a.length b.length)

/-- A document of the store used as a default value for positional lookup. -/
def defaultDoc : Doc :=
  Doc.mk [] (Metadata.mk [] PageTag.na 0) []

lemma pyDedupGo_eq_self [DecidableEq α] :
    ∀ (l seen : List α), l.Nodup → (∀ x ∈ l, x ∉ seen) → pyDedupGo seen l = l := by
  intro l
  induction l with
  | nil => intro seen _ _; rfl
  | cons x xs ih =>
    intro seen hnd hdis
    have hx : x ∉ seen := hdis x (by simp)
    rw [pyDedupGo, if_neg hx]
    refine congrArg (x :: ·) (ih (x :: seen) hnd.of_cons ?_)
    intro y hy
    simp only [List.mem_cons, not_or]
    exact ⟨fun he => (List.nodup_cons.mp hnd).1 (he ▸ hy), hdis y (List.mem_cons_of_mem x hy)⟩

/-- C8: `similarity_search` returns the empty list for a blank query, an
empty corpus, or a query with no valid tokens, without raising. -/
theorem c8_degenerate_query_or_corpus (s : StoreState) (q : List Char) (k : Nat)
    (h : pyStrip q = [] ∨ s.documents = [] ∨ pyTokenize q = []) :
    similaritySearch s q k = [] := by
  unfold similaritySearch
  rcases h with h | h | h <;> simp [h]

/-- Witness for C8 at the whitespace-only query of the spec's Scenario 4. -/
theorem c8_degenerate_query_or_corpus_witness :
    pyStrip (("   ").toList) = [] ∧
    similaritySearch (StoreState.mk [] [] []) (("   ").toList) 5 = [] :=
  ⟨by decide, c8_degenerate_query_or_corpus _ _ _ (Or.inl (by decide))⟩

/-- C9: deserializing a serialized index state reproduces it exactly
(documents in order, the vocabulary set, and the IDF table). -/
theorem c9_snapshot_roundtrip (s : StoreState) (h1 : s.documents ≠ [])
    (h2 : s.vocabulary.Nodup) : loadSnapshot (mkSnapshot s) = s := by
  cases s with
  | mk docs voc idf =>
    have hd : pyDedupGo [] voc = voc := pyDedupGo_eq_self voc [] h2 (by simp)
    simp [loadSnapshot, mkSnapshot, pyDedup, hd]

/-- A small concrete nonempty store state. -/
def c9State : StoreState :=
  StoreState.mk
    [Doc.mk (("abc").toList) (Metadata.mk (("f.pdf").toList) (PageTag.page 1) 3)
      [("abc").toList]]
    [("abc").toList] []

/-- Witness for C9 at a concrete nonempty state. -/
theorem c9_snapshot_roundtrip_witness :
    c9State.documents ≠ [] ∧ c9State.vocabulary.Nodup ∧
    loadSnapshot (mkSnapshot c9State) = c9State :=
  ⟨by decide, by decide, c9_snapshot_roundtrip c9State (by decide) (by decide)⟩

/-- The empty store state. -/
def c2Store : StoreState := StoreState.mk [] [] []

/-- A batch holding one chunk with nonblank content. -/
def c2Batch : List RawDoc :=
  [RawDoc.mk (("hello world example").toList)
    (Metadata.mk (("f.pdf").toList) (PageTag.page 1) 19)]

/-- C2 counterexample: with an unwritable snapshot (`writeOk = false`),
`add_documents` still returns `True` and the in-memory document list has
changed — the claimed failure report and state rollback do not happen. -/
theorem c2_counterexample :
    (addDocumentsFS false none c2Store c2Batch).2.2 = true ∧
    (addDocumentsFS false none c2Store c2Batch).1.documents ≠ c2Store.documents := by
  exact ⟨rfl, by decide⟩

/-- C2 amended: when the snapshot write fails, `_save_data` only logs;
`add_documents` still returns success for any batch containing a nonblank
chunk, the in-memory state keeps the appended documents, and only the
on-disk snapshot is left unchanged. -/
theorem c2_amended_swallowed_save_failure (fs : Option Snapshot)
    (s : StoreState) (batch : List RawDoc)
    (h : batch.filter (fun d => !(pyStrip d.content).isEmpty) ≠ []) :
    (addDocumentsFS false fs s batch).2.2 = true ∧
    (addDocumentsFS false fs s batch).2.1 = fs ∧
    (addDocumentsFS false fs s batch).1.documents
      = s.documents ++ (batch.filter (fun d => !(pyStrip d.content).isEmpty)).map
          (fun d => Doc.mk d.content d.metadata (pyTokenize d.content)) := by
  have hb : batch ≠ [] := by
    intro he; rw [he] at h; exact h rfl
  unfold addDocumentsFS addDocuments saveData
  simp [List.isEmpty_iff, hb, h]

/-- Witness for the amended C2 at a concrete store, batch and failing file
system. -/
theorem c2_amended_swallowed_save_failure_witness :
    c2Batch.filter (fun d => !(pyStrip d.content).isEmpty) ≠ [] ∧
    ((addDocumentsFS false none c2Store c2Batch).2.2 = true ∧
     (addDocumentsFS false none c2Store c2Batch).2.1 = none ∧
     (addDocumentsFS false none c2Store c2Batch).1.documents
       = c2Store.documents
         ++ (c2Batch.filter (fun d => !(pyStrip d.content).isEmpty)).map
             (fun d => Doc.mk d.content d.metadata (pyTokenize d.content))) :=
  ⟨by decide, c2_amended_swallowed_save_failure none c2Store c2Batch (by decide)⟩

/-- Number of occurrences of `t` in `l`. -/
def cntOcc [DecidableEq α] (t : α) (l : List α) : Nat :=
  (l.filter (fun x => decide (x = t))).length

lemma cntOcc_nil [DecidableEq α] (t : α) : cntOcc t ([] : List α) = 0 := rfl

lemma cntOcc_cons [DecidableEq α] (t u : α) (l : List α) :
    cntOcc t (u :: l) = cntOcc t l + (if t = u then 1 else 0) := by
  by_cases h : u = t
  · subst h; simp [cntOcc]
  · have h2 : ¬ t = u := fun he => h he.symm
    simp [cntOcc, h, h2]

lemma cntOcc_of_nodup [DecidableEq α] (t : α) (l : List α) (h : l.Nodup) :
    cntOcc t l = if t ∈ l then 1 else 0 := by
  induction l with
  | nil => simp [cntOcc]
  | cons x xs ih =>
    simp only [List.nodup_cons] at h
    rw [cntOcc_cons, ih h.2]
    by_cases hx : t = x
    · subst hx
      simp [h.1]
    · simp [hx, List.mem_cons]

lemma alookup_getD_bumpCount [DecidableEq α] (u t : α) (acc : List (α × Nat)) :
    (alookup t (bumpCount u acc)).getD 0
      = (alookup t acc).getD 0 + (if t = u then 1 else 0) := by
  induction acc with
  | nil =>
    by_cases h : t = u
    · subst h; simp [bumpCount, alookup]
    · simp [bumpCount, alookup, h]
  | cons p rest ih =>
    obtain ⟨k, c⟩ := p
    by_cases hk : k = u
    · subst hk
      by_cases ht : t = k
      · subst ht; simp [bumpCount, alookup]
      · simp [bumpCount, alookup, ht]
    · by_cases ht : t = k
      · subst ht
        simp [bumpCount, alookup, hk]
      · simp [bumpCount, alookup, hk, ht, ih]

lemma alookup_isSome_bumpCount [DecidableEq α] (u t : α) (acc : List (α × Nat)) :
    (alookup t (bumpCount u acc)).isSome
      = ((alookup t acc).isSome || decide (t = u)) := by
  induction acc with
  | nil =>
    by_cases h : t = u
    · subst h; simp [bumpCount, alookup]
    · simp [bumpCount, alookup, h]
  | cons p rest ih =>
    obtain ⟨k, c⟩ := p
    by_cases hk : k = u
    · subst hk
      by_cases ht : t = k
      · subst ht; simp [bumpCount, alookup]
      · simp [bumpCount, alookup, ht]
    · by_cases ht : t = k
      · subst ht; simp [bumpCount, alookup, hk]
      · simp [bumpCount, alookup, hk, ht, ih]

lemma alookup_getD_foldl_bump [DecidableEq α] (T : List α) (acc : List (α × Nat))
    (t : α) :
    (alookup t (T.foldl (fun a u => bumpCount u a) acc)).getD 0
      = (alookup t acc).getD 0 + cntOcc t T := by
  induction T generalizing acc with
  | nil => simp [cntOcc_nil]
  | cons u T' ih =>
    simp only [List.foldl_cons, ih, alookup_getD_bumpCount, cntOcc_cons]
    omega

lemma alookup_isSome_foldl_bump [DecidableEq α] (T : List α) (acc : List (α × Nat))
    (t : α) :
    (alookup t (T.foldl (fun a u => bumpCount u a) acc)).isSome
      = ((alookup t acc).isSome || decide (t ∈ T)) := by
  induction T generalizing acc with
  | nil => simp
  | cons u T' ih =>
    simp only [List.foldl_cons, ih, alookup_isSome_bumpCount]
    by_cases h : t = u
    · subst h; simp
    · simp [h]

lemma pyDedupGo_nodup_disjoint [DecidableEq α] :
    ∀ (l seen : List α), (pyDedupGo seen l).Nodup ∧ ∀ x ∈ pyDedupGo seen l, x ∉ seen := by
  intro l
  induction l with
  | nil => intro seen; simp [pyDedupGo]
  | cons x xs ih =>
    intro seen
    by_cases hx : x ∈ seen
    · rw [pyDedupGo, if_pos hx]
      exact ih seen
    · rw [pyDedupGo, if_neg hx]
      obtain ⟨hnd, hdis⟩ := ih (x :: seen)
      refine ⟨List.nodup_cons.mpr ⟨fun hmem => (hdis x hmem) (by simp), hnd⟩, ?_⟩
      intro y hy
      rcases List.mem_cons.mp hy with hy | hy
      · exact hy ▸ hx
      · intro hs; exact hdis y hy (List.mem_cons_of_mem x hs)

lemma pyDedup_nodup [DecidableEq α] (l : List α) : (pyDedup l).Nodup :=
  (pyDedupGo_nodup_disjoint l []).1

lemma pyDedupGo_mem_iff [DecidableEq α] :
    ∀ (l seen : List α) (x : α), x ∈ pyDedupGo seen l ↔ x ∈ l ∧ x ∉ seen := by
  intro l
  induction l with
  | nil => intro seen x; simp [pyDedupGo]
  | cons y ys ih =>
    intro seen x
    by_cases hy : y ∈ seen
    · rw [pyDedupGo, if_pos hy, ih]
      constructor
      · rintro ⟨h1, h2⟩; exact ⟨List.mem_cons_of_mem y h1, h2⟩
      · rintro ⟨h1, h2⟩
        rcases List.mem_cons.mp h1 with h | h
        · exact absurd (h ▸ hy) h2
        · exact ⟨h, h2⟩
    · rw [pyDedupGo, if_neg hy]
      constructor
      · intro hx
        rcases List.mem_cons.mp hx with h | h
        · exact ⟨h ▸ List.mem_cons_self y ys, h ▸ hy⟩
        · obtain ⟨h1, h2⟩ := (ih (y :: seen) x).mp h
          simp only [List.mem_cons, not_or] at h2
          exact ⟨List.mem_cons_of_mem y h1, h2.2⟩
      · rintro ⟨h1, h2⟩
        rcases List.mem_cons.mp h1 with h | h
        · exact h ▸ List.mem_cons_self y _
        · by_cases hxy : x = y
          · exact hxy ▸ List.mem_cons_self y _
          · exact List.mem_cons_of_mem y
              ((ih (y :: seen) x).mpr ⟨h, by simp [hxy, h2]⟩)

lemma pyDedup_mem_iff [DecidableEq α] (l : List α) (x : α) :
    x ∈ pyDedup l ↔ x ∈ l := by
  rw [pyDedup, pyDedupGo_mem_iff]; simp

lemma mem_keys_bumpCount [DecidableEq α] (u x : α) (acc : List (α × Nat))
    (h : x ∈ (bumpCount u acc).map Prod.fst) :
    x ∈ acc.map Prod.fst ∨ x = u := by
  induction acc with
  | nil => simpa [bumpCount] using h
  | cons p rest ih =>
    obtain ⟨k, c⟩ := p
    by_cases hk : k = u
    · subst hk
      rw [bumpCount, if_pos rfl] at h
      simp only [List.map_cons] at h ⊢
      exact Or.inl h
    · rw [bumpCount, if_neg hk] at h
      simp only [List.map_cons, List.mem_cons] at h ⊢
      rcases h with h | h
      · exact Or.inl (Or.inl h)
      · rcases ih h with h2 | h2
        · exact Or.inl (Or.inr h2)
        · exact Or.inr h2

lemma nodup_keys_bumpCount [DecidableEq α] (u : α) (acc : List (α × Nat))
    (h : (acc.map Prod.fst).Nodup) : ((bumpCount u acc).map Prod.fst).Nodup := by
  induction acc with
  | nil => simp [bumpCount]
  | cons p rest ih =>
    obtain ⟨k, c⟩ := p
    simp only [List.map_cons, List.nodup_cons] at h
    by_cases hk : k = u
    · subst hk
      rw [bumpCount, if_pos rfl]
      simpa using h
    · rw [bumpCount, if_neg hk]
      simp only [List.map_cons, List.nodup_cons]
      refine ⟨fun hmem => ?_, ih h.2⟩
      rcases mem_keys_bumpCount u k rest hmem with h2 | h2
      · exact h.1 h2
      · exact hk h2

lemma nodup_keys_foldl_bump [DecidableEq α] (T : List α) (acc : List (α × Nat))
    (h : (acc.map Prod.fst).Nodup) :
    (((T.foldl (fun a u => bumpCount u a) acc)).map Prod.fst).Nodup := by
  induction T generalizing acc with
  | nil => simpa using h
  | cons u T' ih => exact ih (bumpCount u acc) (nodup_keys_bumpCount u acc h)

lemma termDocCount_keys_nodup (docs : List Doc) :
    ((termDocCount docs).map Prod.fst).Nodup := by
  have main : ∀ (ds : List Doc) (acc : List (List Char × Nat)),
      (acc.map Prod.fst).Nodup →
      ((ds.foldl (fun acc d => (docTokenSet d).foldl (fun a t => bumpCount t a) acc)
        acc).map Prod.fst).Nodup := by
    intro ds
    induction ds with
    | nil => intro acc h; simpa using h
    | cons d ds' ih =>
      intro acc h
      exact ih _ (nodup_keys_foldl_bump (docTokenSet d) acc h)
  exact main docs [] (by simp)

lemma alookup_eq_some_of_mem_nodup [DecidableEq α] {acc : List (α × β)}
    {p : α × β} (hnd : (acc.map Prod.fst).Nodup) (hp : p ∈ acc) :
    alookup p.1 acc = some p.2 := by
  induction acc with
  | nil => cases hp
  | cons q rest ih =>
    simp only [List.map_cons, List.nodup_cons] at hnd
    rcases List.mem_cons.mp hp with h | h
    · subst h; simp [alookup]
    · have hne : p.1 ≠ q.1 := by
        intro he
        exact hnd.1 (he ▸ List.mem_map_of_mem Prod.fst h)
      rw [alookup, if_neg hne]
      exact ih hnd.2 h

lemma dfCount_append_single (docs : List Doc) (d : Doc) (t : List Char) :
    dfCount (docs ++ [d]) t
      = dfCount docs t + (if t ∈ docTokenSet d then 1 else 0) := by
  unfold dfCount
  rw [List.filter_append, List.length_append]
  by_cases h : t ∈ docTokenSet d <;> simp [h]

lemma count_docTokenSet (d : Doc) (t : List Char) :
    cntOcc t (docTokenSet d) = if t ∈ docTokenSet d then 1 else 0 := by
  rw [cntOcc_of_nodup t (docTokenSet d) (by unfold docTokenSet; exact pyDedup_nodup _)]
  by_cases h : t ∈ docTokenSet d <;> simp [h]

lemma alookup_termDocCount (docs : List Doc) (t : List Char) :
    (alookup t (termDocCount docs)).getD 0 = dfCount docs t ∧
    (alookup t (termDocCount docs)).isSome = decide (0 < dfCount docs t) := by
  induction docs using List.reverseRecOn with
  | nil => simp [termDocCount, alookup, dfCount]
  | append_singleton ds d ih =>
    have hfold : termDocCount (ds ++ [d])
        = (docTokenSet d).foldl (fun a t => bumpCount t a) (termDocCount ds) := by
      unfold termDocCount
      rw [List.foldl_append, List.foldl_cons, List.foldl_nil]
    rw [hfold, alookup_getD_foldl_bump, alookup_isSome_foldl_bump,
      dfCount_append_single, count_docTokenSet, ih.1, ih.2]
    constructor
    · rfl
    · by_cases h : t ∈ docTokenSet d <;> by_cases h2 : 0 < dfCount ds t <;>
        simp [h, h2]

lemma termDocCount_mem_eq (docs : List Doc) {p : List Char × Nat}
    (hp : p ∈ termDocCount docs) :
    p.2 = dfCount docs p.1 ∧ 0 < dfCount docs p.1 := by
  have hl : alookup p.1 (termDocCount docs) = some p.2 :=
    alookup_eq_some_of_mem_nodup (termDocCount_keys_nodup docs) hp
  obtain ⟨h1, h2⟩ := alookup_termDocCount docs p.1
  rw [hl] at h1 h2
  simp only [Option.getD_some, Option.isSome_some] at h1 h2
  refine ⟨by omega, ?_⟩
  by_contra hlt
  rw [decide_eq_false hlt] at h2
  exact Bool.true_eq_false.mp h2

lemma addDocuments_failure (s : StoreState) (batch : List RawDoc)
    (h : (batch.filter (fun d => !(pyStrip d.content).isEmpty)).isEmpty = true) :
    addDocuments s batch = (s, false) := by
  unfold addDocuments
  by_cases hb : batch.isEmpty = true
  · rw [if_pos hb]
  · rw [if_neg hb, if_pos h]

lemma addDocuments_success_eq (s : StoreState) (batch : List RawDoc)
    (h : ¬ (batch.filter (fun d => !(pyStrip d.content).isEmpty)).isEmpty = true) :
    addDocuments s batch
      = (StoreState.mk
          (s.documents
            ++ (batch.filter (fun d => !(pyStrip d.content).isEmpty)).map
              (fun d => Doc.mk d.content d.metadata (pyTokenize d.content)))
          (((batch.filter (fun d => !(pyStrip d.content).isEmpty)).map
              (fun d => Doc.mk d.content d.metadata (pyTokenize d.content))).foldl
            (fun v e => insertVocab v e.tokens) s.vocabulary)
          (calculateIdfStep
            (s.documents
              ++ (batch.filter (fun d => !(pyStrip d.content).isEmpty)).map
                (fun d => Doc.mk d.content d.metadata (pyTokenize d.content)))
            s.idf_scores),
        true) := by
  have hb : ¬ batch.isEmpty = true := by
    intro hbe
    rw [List.isEmpty_iff] at hbe
    subst hbe
    simp at h
  unfold addDocuments
  rw [if_neg hb, if_neg h]

lemma calculateIdf_forall (docs : List Doc) :
    (calculateIdf docs).Forall (fun p =>
      p.2 = Real.log ((docs.length : ℝ) / (dfCount docs p.1 : ℝ))) := by
  rw [List.forall_iff_forall_mem]
  intro p hp
  unfold calculateIdf at hp
  obtain ⟨q, hq, he⟩ := List.mem_map.mp hp
  obtain ⟨h1, _⟩ := termDocCount_mem_eq docs hq
  subst he
  simp only []
  rw [h1]

/-- C3: after every successful `add_documents`, the stored IDF table is
exactly the recomputation of `_calculate_idf` over the full current corpus,
and every entry equals `ln(total_documents / documents_containing(term))`. -/
theorem c3_idf_recomputed_invariant (s : StoreState) (batch : List RawDoc)
    (h : (addDocuments s batch).2 = true) :
    (addDocuments s batch).1.idf_scores
      = calculateIdf (addDocuments s batch).1.documents ∧
    ((addDocuments s batch).1.idf_scores).Forall (fun p =>
      p.2 = Real.log (((addDocuments s batch).1.documents.length : ℝ)
        / (dfCount (addDocuments s batch).1.documents p.1 : ℝ))) := by
  have hne : ¬ (batch.filter (fun d => !(pyStrip d.content).isEmpty)).isEmpty = true := by
    intro hemp
    rw [addDocuments_failure s batch hemp] at h
    simp at h
  rw [addDocuments_success_eq s batch hne]
  have hdocs : ¬ (s.documents
      ++ (batch.filter (fun d => !(pyStrip d.content).isEmpty)).map
        (fun d => Doc.mk d.content d.metadata (pyTokenize d.content))).isEmpty = true := by
    simp only [List.isEmpty_iff, List.append_eq_nil, List.map_eq_nil_iff]
    rintro ⟨-, hm⟩
    rw [List.isEmpty_iff] at hne
    exact hne hm
  constructor
  · show calculateIdfStep _ _ = calculateIdf _
    unfold calculateIdfStep
    rw [if_neg hdocs]
  · show (calculateIdfStep _ _).Forall _
    unfold calculateIdfStep
    rw [if_neg hdocs]
    exact calculateIdf_forall _

/-- A concrete batch with one valid document. -/
def c3Batch : List RawDoc :=
  [RawDoc.mk (("alpha beta gamma alpha").toList)
    (Metadata.mk (("g.pdf").toList) (PageTag.page 1) 22)]

/-- A concrete empty store used to exercise C3. -/
def c3Store : StoreState := StoreState.mk [] [] []

/-- Witness for C3 at a concrete successful insertion. -/
theorem c3_idf_recomputed_invariant_witness :
    (addDocuments c3Store c3Batch).2 = true ∧
    ((addDocuments c3Store c3Batch).1.idf_scores
       = calculateIdf (addDocuments c3Store c3Batch).1.documents ∧
     ((addDocuments c3Store c3Batch).1.idf_scores).Forall (fun p =>
       p.2 = Real.log (((addDocuments c3Store c3Batch).1.documents.length : ℝ)
         / (dfCount (addDocuments c3Store c3Batch).1.documents p.1 : ℝ)))) :=
  ⟨rfl, c3_idf_recomputed_invariant c3Store c3Batch rfl⟩

lemma mem_of_alookup_eq_some [DecidableEq α] {k : α} {v : β} :
    ∀ {l : List (α × β)}, alookup k l = some v → (k, v) ∈ l := by
  intro l
  induction l with
  | nil => intro h; cases h
  | cons p rest ih =>
    intro h
    obtain ⟨k', v'⟩ := p
    by_cases hk : k = k'
    · subst hk
      rw [alookup, if_pos rfl] at h
      injection h with hv
      subst hv
      exact List.mem_cons_self _ _
    · rw [alookup, if_neg hk] at h
      exact List.mem_cons_of_mem _ (ih h)

lemma cosine_zero_of_left_zero (v1 v2 : List (List Char × ℝ))
    (h : ∀ p ∈ v1, p.2 = 0) : calculateCosineSimilarity v1 v2 = 0 := by
  unfold calculateCosineSimilarity
  by_cases he : (pyDedup (v1.map Prod.fst ++ v2.map Prod.fst)).isEmpty = true
  · rw [if_pos he]
  · rw [if_neg he]
    have hsum : (v1.map (fun p => p.2 ^ 2)).sum = 0 := by
      apply List.sum_eq_zero
      intro x hx
      obtain ⟨p, hp, he2⟩ := List.mem_map.mp hx
      rw [← he2, h p hp]
      ring
    have hm : Real.sqrt ((v1.map (fun p => p.2 ^ 2)).sum) = 0 := by
      rw [hsum, Real.sqrt_zero]
    rw [if_pos (Or.inl hm)]

lemma tfidf_values_zero (idf : List (List Char × ℝ)) (toks : List (List Char))
    (h : ∀ p ∈ idf, p.2 = 0) :
    ∀ p ∈ getTfidfVector idf toks, p.2 = 0 := by
  intro p hp
  unfold getTfidfVector at hp
  obtain ⟨t, _, he⟩ := List.mem_map.mp hp
  subst he
  simp only []
  cases halo : alookup t idf with
  | none => simp [halo]
  | some v =>
    have hv : v = 0 := h (t, v) (mem_of_alookup_eq_some halo)
    simp [halo, hv]

lemma calculateIdf_singleton_zero (d : Doc) :
    ∀ p ∈ calculateIdf [d], p.2 = 0 := by
  intro p hp
  unfold calculateIdf at hp
  obtain ⟨q, hq, he⟩ := List.mem_map.mp hp
  obtain ⟨h1, h2⟩ := termDocCount_mem_eq [d] hq
  have hle : dfCount [d] q.1 ≤ 1 := by
    unfold dfCount
    simpa using List.length_filter_le (fun d' => decide (q.1 ∈ docTokenSet d')) [d]
  have heq : dfCount [d] q.1 = 1 := le_antisymm hle h2
  subst he
  simp only []
  rw [h1, heq]
  norm_num [Real.log_one]

/-- Content of the single stored chunk of the spec's Scenario 1. -/
def c1Content : List Char := ("Safety protocols require PPE at all times.").toList

/-- The Scenario 1 chunk as an insertion input (page 2). -/
def c1Doc : RawDoc :=
  RawDoc.mk c1Content (Metadata.mk (("doc.pdf").toList) (PageTag.page 2) 42)

/-- The stored entry created for the Scenario 1 chunk. -/
def c1Entry : Doc := Doc.mk c1Content c1Doc.metadata (pyTokenize c1Content)

/-- The store holding exactly the Scenario 1 chunk. -/
noncomputable def c1Store : StoreState :=
  (addDocuments (StoreState.mk [] [] []) [c1Doc]).1

/-- The Scenario 1 query. -/
def c1Query : List Char := ("What PPE is required?").toList

lemma c1_search_eval : similaritySearch c1Store c1Query 5 = [] := by
  have hidfz : ∀ p ∈ c1Store.idf_scores, p.2 = 0 := by
    have he : c1Store.idf_scores = calculateIdf [c1Entry] := rfl
    rw [he]
    exact calculateIdf_singleton_zero _
  have hqz : ∀ p ∈ getTfidfVector c1Store.idf_scores (pyTokenize c1Query), p.2 = 0 :=
    tfidf_values_zero _ _ hidfz
  have hsim : calculateCosineSimilarity
      (getTfidfVector c1Store.idf_scores (pyTokenize c1Query))
      (getTfidfVector c1Store.idf_scores c1Entry.tokens) = 0 :=
    cosine_zero_of_left_zero _ _ hqz
  show (sortDescBy (fun r => r.score)
    (collectSimilarities c1Store.idf_scores
      (getTfidfVector c1Store.idf_scores (pyTokenize c1Query))
      c1Store.documents)).take 5 = []
  have hdocs : c1Store.documents = [c1Entry] := rfl
  rw [hdocs]
  simp only [collectSimilarities]
  rw [hsim, if_neg (lt_irrefl 0)]
  simp [sortDescBy]

/-- C1 counterexample: on the Scenario 1 corpus and query the search does
not return one result — it returns no result at all, because with a single
stored document every IDF weight is `ln(1) = 0`, both TF-IDF vectors are
zero, the cosine similarity is 0, and zero-similarity documents are
excluded. -/
theorem c1_counterexample : (similaritySearch c1Store c1Query 5).length ≠ 1 := by
  rw [c1_search_eval]
  decide

/-- C1 amended: for the corpus holding exactly the Scenario 1 chunk,
`similarity_search` with the Scenario 1 query returns the empty sequence. -/
theorem c1_single_doc_returns_empty : similaritySearch c1Store c1Query 5 = [] :=
  c1_search_eval

lemma mem_insertDescBy (f : α → ℝ) (x y : α) (l : List α) :
    y ∈ insertDescBy f x l ↔ y = x ∨ y ∈ l := by
  induction l with
  | nil => simp [insertDescBy]
  | cons z zs ih =>
    rw [insertDescBy]
    by_cases h : f x < f z
    · rw [if_pos h]
      simp only [List.mem_cons, ih]
      tauto
    · rw [if_neg h]
      simp only [List.mem_cons]

lemma mem_sortDescBy (f : α → ℝ) (y : α) (l : List α) :
    y ∈ sortDescBy f l ↔ y ∈ l := by
  induction l with
  | nil => simp [sortDescBy]
  | cons x xs ih =>
    rw [sortDescBy, mem_insertDescBy]
    simp [ih]

lemma pairwise_ge_insertDescBy (f : α → ℝ) (x : α) (l : List α)
    (hl : l.Pairwise (fun a b => f b ≤ f a)) :
    (insertDescBy f x l).Pairwise (fun a b => f b ≤ f a) := by
  induction l with
  | nil => simp [insertDescBy]
  | cons y ys ih =>
    rw [List.pairwise_cons] at hl
    rw [insertDescBy]
    by_cases h : f x < f y
    · rw [if_pos h]
      rw [List.pairwise_cons]
      refine ⟨?_, ih hl.2⟩
      intro z hz
      rcases (mem_insertDescBy f x z ys).mp hz with hz | hz
      · exact hz ▸ le_of_lt h
      · exact hl.1 z hz
    · rw [if_neg h]
      rw [List.pairwise_cons]
      refine ⟨?_, List.pairwise_cons.mpr hl⟩
      intro z hz
      rcases List.mem_cons.mp hz with hz | hz
      · exact hz ▸ le_of_not_lt h
      · exact le_trans (hl.1 z hz) (le_of_not_lt h)

lemma pairwise_ge_sortDescBy (f : α → ℝ) (l : List α) :
    (sortDescBy f l).Pairwise (fun a b => f b ≤ f a) := by
  induction l with
  | nil => simp [sortDescBy]
  | cons x xs ih => exact pairwise_ge_insertDescBy f x _ ih

lemma pairwise_stable_insertDescBy (f : α → ℝ) (g : α → Nat) (x : α) (l : List α)
    (hl : l.Pairwise (fun a b => f b < f a ∨ (f a = f b ∧ g a < g b)))
    (hx : ∀ y ∈ l, g x < g y) :
    (insertDescBy f x l).Pairwise
      (fun a b => f b < f a ∨ (f a = f b ∧ g a < g b)) := by
  induction l with
  | nil => simp [insertDescBy]
  | cons y ys ih =>
    rw [List.pairwise_cons] at hl
    rw [insertDescBy]
    by_cases h : f x < f y
    · rw [if_pos h]
      rw [List.pairwise_cons]
      refine ⟨?_, ih hl.2 (fun z hz => hx z (List.mem_cons_of_mem y hz))⟩
      intro z hz
      rcases (mem_insertDescBy f x z ys).mp hz with hz | hz
      · exact hz ▸ Or.inl h
      · exact hl.1 z hz
    · rw [if_neg h]
      have hyx : f y ≤ f x := le_of_not_lt h
      rw [List.pairwise_cons]
      constructor
      · intro z hz
        rcases List.mem_cons.mp hz with hz | hz
        · subst hz
          rcases lt_or_eq_of_le hyx with hlt | heq
          · exact Or.inl hlt
          · exact Or.inr ⟨heq.symm, hx z (List.mem_cons_self _ _)⟩
        · rcases hl.1 z hz with hzy | ⟨heq, _⟩
          · exact Or.inl (lt_of_lt_of_le hzy hyx)
          · rcases lt_or_eq_of_le hyx with hlt | heq2
            · exact Or.inl (heq ▸ hlt)
            · exact Or.inr ⟨heq2.symm.trans heq, hx z (List.mem_cons_of_mem y hz)⟩
      · exact List.pairwise_cons.mpr hl

lemma pairwise_stable_sortDescBy (f : α → ℝ) (g : α → Nat) (l : List α)
    (hl : l.Pairwise (fun a b => g a < g b)) :
    (sortDescBy f l).Pairwise
      (fun a b => f b < f a ∨ (f a = f b ∧ g a < g b)) := by
  induction l with
  | nil => simp [sortDescBy]
  | cons x xs ih =>
    rw [List.pairwise_cons] at hl
    rw [sortDescBy]
    refine pairwise_stable_insertDescBy f g x _ (ih hl.2) ?_
    intro y hy
    exact hl.1 y ((mem_sortDescBy f y xs).mp hy)

lemma map_insertDescBy (g : α → β) (f : β → ℝ) (x : α) (l : List α) :
    (insertDescBy (fun a => f (g a)) x l).map g = insertDescBy f (g x) (l.map g) := by
  induction l with
  | nil => simp [insertDescBy]
  | cons y ys ih =>
    rw [insertDescBy]
    by_cases h : f (g x) < f (g y)
    · rw [if_pos h]
      simp only [List.map_cons]
      rw [insertDescBy, if_pos h, ih]
    · rw [if_neg h]
      simp only [List.map_cons]
      rw [insertDescBy, if_neg h]

lemma map_sortDescBy (g : α → β) (f : β → ℝ) (l : List α) :
    (sortDescBy (fun a => f (g a)) l).map g = sortDescBy f (l.map g) := by
  induction l with
  | nil => simp [sortDescBy]
  | cons x xs ih =>
    rw [sortDescBy, map_insertDescBy, ih]
    rw [List.map_cons, sortDescBy]

lemma collect_score_pos (idf qv : List (List Char × ℝ)) :
    ∀ (ds : List Doc) (r : SearchResult),
      r ∈ collectSimilarities idf qv ds → 0 < r.score := by
  intro ds
  induction ds with
  | nil => intro r h; cases h
  | cons d ds' ih =>
    intro r h
    rw [collectSimilarities] at h
    by_cases hs : 0 < calculateCosineSimilarity qv (getTfidfVector idf d.tokens)
    · rw [if_pos hs] at h
      rcases List.mem_cons.mp h with h | h
      · exact h ▸ hs
      · exact ih r h
    · rw [if_neg hs] at h
      exact ih r h

lemma collectIdx_map_snd (idf qv : List (List Char × ℝ)) :
    ∀ (ds : List Doc) (n : Nat),
      (collectSimilaritiesIdx idf qv n ds).map Prod.snd
        = collectSimilarities idf qv ds := by
  intro ds
  induction ds with
  | nil => intro n; rfl
  | cons d ds' ih =>
    intro n
    rw [collectSimilarities, collectSimilaritiesIdx]
    by_cases hs : 0 < calculateCosineSimilarity qv (getTfidfVector idf d.tokens)
    · rw [if_pos hs, if_pos hs, List.map_cons, ih]
    · rw [if_neg hs, if_neg hs, ih]

lemma collectIdx_idx_increasing (idf qv : List (List Char × ℝ)) :
    ∀ (ds : List Doc) (n : Nat),
      (collectSimilaritiesIdx idf qv n ds).Pairwise (fun a b => a.1 < b.1) ∧
      ∀ p ∈ collectSimilaritiesIdx idf qv n ds, n ≤ p.1 := by
  intro ds
  induction ds with
  | nil => intro n; exact ⟨List.Pairwise.nil, fun p h => absurd h (List.not_mem_nil p)⟩
  | cons d ds' ih =>
    intro n
    rw [collectSimilaritiesIdx]
    by_cases hs : 0 < calculateCosineSimilarity qv (getTfidfVector idf d.tokens)
    · rw [if_pos hs]
      obtain ⟨hpw, hge⟩ := ih (n + 1)
      refine ⟨List.pairwise_cons.mpr ⟨?_, hpw⟩, ?_⟩
      · intro p hp
        have := hge p hp
        omega
      · intro p hp
        rcases List.mem_cons.mp hp with hp | hp
        · subst hp; exact le_refl n
        · have := hge p hp
          omega
    · rw [if_neg hs]
      obtain ⟨hpw, hge⟩ := ih (n + 1)
      refine ⟨hpw, fun p hp => ?_⟩
      have := hge p hp
      omega

lemma collectIdx_spec (idf qv : List (List Char × ℝ)) :
    ∀ (ds : List Doc) (n : Nat) (p : Nat × SearchResult),
      p ∈ collectSimilaritiesIdx idf qv n ds →
      n ≤ p.1 ∧ p.1 - n < ds.length ∧
      p.2.score = calculateCosineSimilarity qv
        (getTfidfVector idf ((ds.getD (p.1 - n) defaultDoc).tokens)) ∧
      0 < p.2.score := by
  intro ds
  induction ds with
  | nil => intro n p h; cases h
  | cons d ds' ih =>
    intro n p h
    rw [collectSimilaritiesIdx] at h
    by_cases hs : 0 < calculateCosineSimilarity qv (getTfidfVector idf d.tokens)
    · rw [if_pos hs] at h
      rcases List.mem_cons.mp h with h | h
      · subst h
        refine ⟨le_refl n, by simp, ?_, hs⟩
        simp
      · obtain ⟨h1, h2, h3, h4⟩ := ih (n + 1) p h
        have hd : p.1 - n = (p.1 - (n + 1)) + 1 := by omega
        refine ⟨by omega, by simp; omega, ?_, h4⟩
        rw [hd]
        simpa using h3
    · rw [if_neg hs] at h
      obtain ⟨h1, h2, h3, h4⟩ := ih (n + 1) p h
      have hd : p.1 - n = (p.1 - (n + 1)) + 1 := by omega
      refine ⟨by omega, by simp; omega, ?_, h4⟩
      rw [hd]
      simpa using h3

lemma similaritySearch_cases (s : StoreState) (q : List Char) (k : Nat) :
    (similaritySearch s q k = [] ∧ similaritySearchIdx s q k = []) ∨
    (similaritySearch s q k
        = (sortDescBy (fun r => r.score) (collectSimilarities s.idf_scores
            (getTfidfVector s.idf_scores (pyTokenize q)) s.documents)).take k ∧
     similaritySearchIdx s q k
        = (sortDescBy (fun p => p.2.score) (collectSimilaritiesIdx s.idf_scores
            (getTfidfVector s.idf_scores (pyTokenize q)) 0 s.documents)).take k) := by
  by_cases h1 : (pyStrip q).isEmpty = true
  · left
    constructor <;> simp [similaritySearch, similaritySearchIdx, h1]
  · by_cases h2 : s.documents.isEmpty = true
    · left
      constructor <;> simp [similaritySearch, similaritySearchIdx, h1, h2]
    · by_cases h3 : (pyTokenize q).isEmpty = true
      · left
        constructor <;> simp [similaritySearch, similaritySearchIdx, h1, h2, h3]
      · right
        constructor <;> simp [similaritySearch, similaritySearchIdx, h1, h2, h3]

/-- C4: every result of `similarity_search` has a strictly positive score,
and (via the index-instrumented variant) every result's score is exactly
the cosine similarity of the query vector with its source chunk's TF-IDF
vector — so a stored chunk whose similarity is exactly 0, in particular one
sharing no weighted terms with the query or one with a zero-magnitude
vector, never appears in the results. -/
theorem c4_zero_similarity_excluded (s : StoreState) (q : List Char) (k : Nat) :
    (similaritySearch s q k).Forall (fun r => 0 < r.score) ∧
    (similaritySearchIdx s q k).Forall (fun p =>
      p.1 < s.documents.length ∧
      p.2.score = calculateCosineSimilarity
        (getTfidfVector s.idf_scores (pyTokenize q))
        (getTfidfVector s.idf_scores ((s.documents.getD p.1 defaultDoc).tokens)) ∧
      0 < p.2.score) := by
  rcases similaritySearch_cases s q k with ⟨h1, h2⟩ | ⟨h1, h2⟩
  · rw [h1, h2]
    exact ⟨trivial, trivial⟩
  · rw [h1, h2, List.forall_iff_forall_mem, List.forall_iff_forall_mem]
    constructor
    · intro r hr
      have hr2 : r ∈ sortDescBy (fun r => r.score)
          (collectSimilarities s.idf_scores
            (getTfidfVector s.idf_scores (pyTokenize q)) s.documents) :=
        (List.take_sublist _ _).subset hr
      have hr3 := (mem_sortDescBy _ r _).mp hr2
      exact collect_score_pos _ _ _ r hr3
    · intro p hp
      have hp2 : p ∈ sortDescBy (fun p => p.2.score)
          (collectSimilaritiesIdx s.idf_scores
            (getTfidfVector s.idf_scores (pyTokenize q)) 0 s.documents) :=
        (List.take_sublist _ _).subset hp
      have hp3 := (mem_sortDescBy _ p _).mp hp2
      obtain ⟨-, h2', h3', h4'⟩ := collectIdx_spec _ _ _ 0 p hp3
      simp only [Nat.sub_zero] at h2' h3'
      exact ⟨h2', h3', h4'⟩

/-- C5: `similarity_search` returns at most `top_k` results, sorted by
descending score; `similarity_search` is the index-erasure of the
instrumented variant, in which any two results with equal scores appear in
increasing order of their chunks' insertion positions (stable ties). -/
theorem c5_sorted_topk_stable_ties (s : StoreState) (q : List Char) (k : Nat) :
    (similaritySearch s q k).length ≤ k ∧
    (similaritySearch s q k).Pairwise (fun a b => b.score ≤ a.score) ∧
    similaritySearch s q k = (similaritySearchIdx s q k).map Prod.snd ∧
    (similaritySearchIdx s q k).Pairwise
      (fun a b => a.2.score = b.2.score → a.1 < b.1) := by
  rcases similaritySearch_cases s q k with ⟨h1, h2⟩ | ⟨h1, h2⟩
  · rw [h1, h2]
    exact ⟨Nat.zero_le k, List.Pairwise.nil, rfl, List.Pairwise.nil⟩
  · refine ⟨?_, ?_, ?_, ?_⟩
    · rw [h1, List.length_take]
      exact min_le_left _ _
    · rw [h1]
      exact ((pairwise_ge_sortDescBy _ _).sublist (List.take_sublist _ _)).imp
        (fun h => h)
    · rw [h1, h2, List.map_take]
      congr 1
      rw [← collectIdx_map_snd s.idf_scores
        (getTfidfVector s.idf_scores (pyTokenize q)) s.documents 0]
      exact (map_sortDescBy Prod.snd (fun r : SearchResult => r.score) _).symm
    · rw [h2]
      have hstable := pairwise_stable_sortDescBy (fun p => p.2.score) Prod.fst
        (collectSimilaritiesIdx s.idf_scores
          (getTfidfVector s.idf_scores (pyTokenize q)) 0 s.documents)
        (collectIdx_idx_increasing _ _ _ 0).1
      refine (hstable.sublist (List.take_sublist _ _)).imp ?_
      intro a b hab heq
      rcases hab with hlt | ⟨-, hidx⟩
      · have hlt' : b.2.score < a.2.score := hlt
        rw [heq] at hlt'
        exact absurd hlt' (lt_irrefl _)
      · exact hidx

lemma regionChunks_pages (cs co : Nat) (text fname : List Char) :
    (regionChunks cs co text fname).Forall (fun c => c.metadata.page ≠ PageTag.na) := by
  rw [List.forall_iff_forall_mem]
  intro c hc
  unfold regionChunks at hc
  rw [List.mem_flatMap] at hc
  obtain ⟨pr, hpr, hc2⟩ := hc
  by_cases hpt : (pyStrip pr.2).isEmpty = true
  · rw [if_pos hpt] at hc2
    cases hc2
  · rw [if_neg hpt] at hc2
    obtain ⟨c', hc', he⟩ := List.mem_map.mp hc2
    subst he
    exact fun h => PageTag.noConfusion h

lemma fallbackChunks_pages (cs co : Nat) (text fname : List Char) :
    (fallbackChunks cs co text fname).Forall (fun c => c.metadata.page = PageTag.na) := by
  rw [List.forall_iff_forall_mem]
  intro c hc
  unfold fallbackChunks at hc
  obtain ⟨c', hc', he⟩ := List.mem_map.mp hc
  subst he
  rfl

/-- C10: the fallback branch of `create_chunks` runs exactly when the
page-region pass retains no chunk; it then re-chunks the entire text (page
markers included) tagging every chunk `"N/A"`, and when at least one region
chunk is retained the output is the region chunks, none tagged `"N/A"`. -/
theorem c10_fallback_rechunks_whole_text (text fname : List Char) :
    (regionChunks 800 100 text fname = [] →
      createChunks 800 100 text fname = fallbackChunks 800 100 text fname ∧
      (fallbackChunks 800 100 text fname).Forall
        (fun c => c.metadata.page = PageTag.na)) ∧
    (regionChunks 800 100 text fname ≠ [] →
      createChunks 800 100 text fname = regionChunks 800 100 text fname ∧
      (regionChunks 800 100 text fname).Forall
        (fun c => c.metadata.page ≠ PageTag.na)) := by
  constructor
  · intro h
    refine ⟨?_, fallbackChunks_pages _ _ _ _⟩
    unfold createChunks
    by_cases ht : text.isEmpty = true
    · rw [if_pos ht]
      rw [List.isEmpty_iff] at ht
      subst ht
      rfl
    · rw [if_neg ht]
      rw [h]
      simp
  · intro h
    refine ⟨?_, regionChunks_pages _ _ _ _⟩
    unfold createChunks
    have ht : ¬ text.isEmpty = true := by
      intro hte
      rw [List.isEmpty_iff] at hte
      subst hte
      exact h rfl
    have hne : ¬ (regionChunks 800 100 text fname).isEmpty = true := by
      rw [List.isEmpty_iff]
      exact h
    rw [if_neg ht]
    simp [hne]

/-- A text whose single page region yields only a too-short chunk, while the
whole text exceeds the 50-character minimum. -/
def c10Text : List Char := List.replicate 45 'x' ++ ("[PAGE 2] abcd.").toList

/-- A file name. -/
def c10Name : List Char := ("f.pdf").toList

/-- Witness for C10: at `c10Text` the region pass retains nothing and the
fallback output is returned. -/
theorem c10_fallback_rechunks_whole_text_witness :
    regionChunks 800 100 c10Text c10Name = [] ∧
    (createChunks 800 100 c10Text c10Name = fallbackChunks 800 100 c10Text c10Name ∧
     (fallbackChunks 800 100 c10Text c10Name).Forall
       (fun c => c.metadata.page = PageTag.na)) :=
  ⟨by decide, (c10_fallback_rechunks_whole_text c10Text c10Name).1 (by decide)⟩

lemma length_dropWhile_le' (p : α → Bool) (l : List α) :
    (l.dropWhile p).length ≤ l.length := by
  induction l with
  | nil => simp
  | cons x xs ih =>
    rw [List.dropWhile]
    by_cases h : p x = true
    · rw [h]
      simp only [List.length_cons]
      omega
    · rw [Bool.of_not_eq_true h]

lemma pyStrip_length_le (l : List Char) : (pyStrip l).length ≤ l.length := by
  unfold pyStrip
  calc ((l.dropWhile isPySpace).reverse.dropWhile isPySpace).reverse.length
      = ((l.dropWhile isPySpace).reverse.dropWhile isPySpace).length := by
        rw [List.length_reverse]
    _ ≤ (l.dropWhile isPySpace).reverse.length := length_dropWhile_le' _ _
    _ = (l.dropWhile isPySpace).length := by rw [List.length_reverse]
    _ ≤ l.length := length_dropWhile_le' _ _

lemma sentenceSplitGo_seg_length :
    ∀ (fuel : Nat) (acc l seg : List Char), seg ∈ sentenceSplitGo fuel acc l →
      seg.length ≤ acc.length + l.length := by
  intro fuel
  induction fuel with
  | zero =>
    intro acc l seg h
    rw [sentenceSplitGo] at h
    rcases List.mem_singleton.mp h with rfl
    simp
  | succ fuel ih =>
    intro acc l seg h
    cases l with
    | nil =>
      rw [sentenceSplitGo] at h
      rcases List.mem_singleton.mp h with rfl
      simp
    | cons c rest =>
      rw [sentenceSplitGo] at h
      by_cases hc : (isPySpace c && endsSentence acc) = true
      · rw [if_pos hc] at h
        rcases List.mem_cons.mp h with rfl | h
        · simp only [List.length_reverse, List.length_cons]
          omega
        · have := ih [] (rest.dropWhile isPySpace) seg h
          have h2 := length_dropWhile_le' isPySpace rest
          simp only [List.length_nil, List.length_cons] at this ⊢
          omega
      · rw [if_neg hc] at h
        have := ih (c :: acc) rest seg h
        simp only [List.length_cons] at this ⊢
        omega

lemma getLast?_mem' {l : List α} {a : α} (h : l.getLast? = some a) : a ∈ l := by
  induction l with
  | nil => cases h
  | cons x xs ih =>
    cases xs with
    | nil =>
      rw [List.getLast?_singleton] at h
      injection h with h
      exact h ▸ List.mem_cons_self _ _
    | cons y ys =>
      rw [List.getLast?_cons_cons] at h
      exact List.mem_cons_of_mem x (ih h)

lemma getOverlapText_length_le (co : Nat) (t : List Char) :
    (getOverlapText co t).length ≤ co := by
  unfold getOverlapText
  by_cases h : t.length ≤ co
  · rw [if_pos h]
    exact h
  · rw [if_neg h]
    have htail : (t.drop (t.length - co)).length = co := by
      rw [List.length_drop]
      omega
    by_cases h2 : 1 < (sentenceSplit (t.drop (t.length - co))).length
    · rw [if_pos h2]
      cases hls : (sentenceSplit (t.drop (t.length - co))).getLast? with
      | none => exact le_of_eq htail
      | some lastSeg =>
        dsimp only
        by_cases hle : lastSeg.isEmpty = true
        · rw [if_pos hle]
          exact le_of_eq htail
        · rw [if_neg hle]
          have hmem := getLast?_mem' hls
          have := sentenceSplitGo_seg_length _ [] _ lastSeg hmem
          simp only [List.length_nil, Nat.zero_add] at this
          omega
    · rw [if_neg h2]
      exact le_of_eq htail

/-- The chunk-size bound of C6: the chunk is at most the target size plus the
length of one (stripped, nonempty) sentence of the text's sentence split. -/
def sizeBounded (text : List Char) (c : List Char) : Prop :=
  ∃ s, s ∈ sentenceSplit text ∧ pyStrip s ≠ [] ∧
    c.length ≤ 800 + (pyStrip s).length

/-- The loop invariant behind C6. -/
def chunkInv (text : List Char) (st : ChunkAcc) : Prop :=
  (∀ c ∈ st.chunks, sizeBounded text c) ∧
  (st.buf = [] ∧ st.buflen = 0 ∨
    (st.buf ≠ [] ∧ st.buf.length ≤ st.buflen ∧ sizeBounded text st.buf))

lemma chunkStep_inv (text : List Char) (st : ChunkAcc) (sent : List Char)
    (hs : sent ∈ sentenceSplit text) (hinv : chunkInv text st) :
    chunkInv text (chunkStep 800 100 st sent) := by
  simp only [chunkStep]
  by_cases h1 : (pyStrip sent).isEmpty = true
  · rw [if_pos h1]
    exact hinv
  · rw [if_neg h1]
    have hne : pyStrip sent ≠ [] := fun he => h1 (by rw [he]; rfl)
    have hslen : 1 ≤ (pyStrip sent).length :=
      List.length_pos.mpr hne
    by_cases h2 : (decide (800 < st.buflen + (pyStrip sent).length)
        && !st.buf.isEmpty) = true
    · rw [if_pos h2]
      have h2' : 800 < st.buflen + (pyStrip sent).length ∧ ¬ st.buf.isEmpty = true := by
        simpa using h2
      have hbufne : st.buf ≠ [] := fun he => h2'.2 (by rw [he]; rfl)
      rcases hinv.2 with ⟨hb, -⟩ | ⟨-, hble, hGood⟩
      · exact absurd hb hbufne
      constructor
      · intro c hc
        rcases List.mem_append.mp hc with hc | hc
        · exact hinv.1 c hc
        · rcases List.mem_singleton.mp hc with rfl
          obtain ⟨s0, hs0, hs0ne, hs0le⟩ := hGood
          exact ⟨s0, hs0, hs0ne, le_trans (pyStrip_length_le _) hs0le⟩
      · right
        refine ⟨?_, le_refl _, ?_⟩
        · intro heq
          have := congrArg List.length heq
          simp at this
        · refine ⟨sent, hs, hne, ?_⟩
          simp only [List.length_append, List.length_cons]
          have hov := getOverlapText_length_le 100 st.buf
          omega
    · rw [if_neg h2]
      constructor
      · exact hinv.1
      · by_cases hbe : st.buf.isEmpty = true
        · rw [if_pos hbe]
          right
          refine ⟨hne, ?_, sent, hs, hne, ?_⟩ <;> dsimp only <;> omega
        · rw [if_neg hbe]
          have hbufne : st.buf ≠ [] := fun he => hbe (by rw [he]; rfl)
          rcases hinv.2 with ⟨hb, -⟩ | ⟨-, hble, -⟩
          · exact absurd hb hbufne
          have hcond : st.buflen + (pyStrip sent).length ≤ 800 := by
            by_contra hlt
            apply h2
            simp only [Bool.and_eq_true, decide_eq_true_eq, Bool.not_eq_true']
            exact ⟨by omega, Bool.of_not_eq_true hbe⟩
          right
          refine ⟨?_, ?_, sent, hs, hne, ?_⟩
          · intro heq
            have := congrArg List.length heq
            simp at this
          · simp only [List.length_append, List.length_cons]
            omega
          · simp only [List.length_append, List.length_cons]
            omega

lemma chunkFold_inv (text : List Char) :
    ∀ (L : List (List Char)) (st : ChunkAcc),
      (∀ x ∈ L, x ∈ sentenceSplit text) → chunkInv text st →
      chunkInv text (L.foldl (chunkStep 800 100) st) := by
  intro L
  induction L with
  | nil => intro st _ h; exact h
  | cons x xs ih =>
    intro st hL hinv
    rw [List.foldl_cons]
    exact ih _ (fun y hy => hL y (List.mem_cons_of_mem x hy))
      (chunkStep_inv text st x (hL x (List.mem_cons_self _ _)) hinv)

/-- C6: every chunk emitted by `_split_text_into_chunks` (default sizes) is
at most the target size 800 plus the length of one stripped, nonempty
sentence of the input — in particular a single long sentence is emitted
unshortened (no hard truncation). -/
theorem c6_soft_size_bound (text : List Char) :
    (splitTextIntoChunks 800 100 text).Forall (fun c =>
      ∃ s, s ∈ sentenceSplit text ∧ pyStrip s ≠ [] ∧
        c.length ≤ 800 + (pyStrip s).length) := by
  rw [List.forall_iff_forall_mem]
  intro c hc
  simp only [splitTextIntoChunks] at hc
  by_cases ht : text.isEmpty = true
  · rw [if_pos ht] at hc
    cases hc
  · rw [if_neg ht] at hc
    have hinv := chunkFold_inv text (sentenceSplit text) (ChunkAcc.mk [] [] 0)
      (fun x hx => hx)
      ⟨fun c0 hc0 => absurd hc0 (List.not_mem_nil c0), Or.inl ⟨rfl, rfl⟩⟩
    set st := (sentenceSplit text).foldl (chunkStep 800 100) (ChunkAcc.mk [] [] 0)
      with hst
    by_cases hb : (pyStrip st.buf).isEmpty = true
    · rw [if_pos hb] at hc
      exact hinv.1 c hc
    · rw [if_neg hb] at hc
      rcases List.mem_append.mp hc with hc | hc
      · exact hinv.1 c hc
      · rcases List.mem_singleton.mp hc with rfl
        rcases hinv.2 with ⟨hbe, -⟩ | ⟨-, -, s0, hs0, hs0ne, hs0le⟩
        · rw [hbe] at hb
          exact absurd rfl hb
        · exact ⟨s0, hs0, hs0ne, le_trans (pyStrip_length_le _) hs0le⟩

lemma dropWhile_suffix' (p : α → Bool) (l : List α) :
    ∃ pre, pre ++ l.dropWhile p = l := by
  induction l with
  | nil => exact ⟨[], rfl⟩
  | cons x xs ih =>
    rw [List.dropWhile]
    by_cases h : p x = true
    · rw [h]
      obtain ⟨pre, hpre⟩ := ih
      exact ⟨x :: pre, by rw [List.cons_append, hpre]⟩
    · rw [Bool.of_not_eq_true h]
      exact ⟨[], rfl⟩

lemma sentenceSplitGo_ne_nil : ∀ (fuel : Nat) (acc l : List Char),
    sentenceSplitGo fuel acc l ≠ [] := by
  intro fuel
  induction fuel with
  | zero =>
    intro acc l
    rw [sentenceSplitGo]
    exact List.cons_ne_nil _ _
  | succ fuel ih =>
    intro acc l
    cases l with
    | nil =>
      rw [sentenceSplitGo]
      exact List.cons_ne_nil _ _
    | cons c rest =>
      rw [sentenceSplitGo]
      by_cases hc : (isPySpace c && endsSentence acc) = true
      · rw [if_pos hc]
        exact List.cons_ne_nil _ _
      · rw [if_neg hc]
        exact ih _ _

lemma sentenceSplitGo_last_suffix : ∀ (fuel : Nat) (acc l seg : List Char),
    (sentenceSplitGo fuel acc l).getLast? = some seg →
    ∃ pre, pre ++ seg = acc.reverse ++ l := by
  intro fuel
  induction fuel with
  | zero =>
    intro acc l seg h
    rw [sentenceSplitGo] at h
    rw [List.getLast?_singleton] at h
    injection h with h
    exact ⟨[], by rw [List.nil_append, h]⟩
  | succ fuel ih =>
    intro acc l seg h
    cases l with
    | nil =>
      rw [sentenceSplitGo] at h
      rw [List.getLast?_singleton] at h
      injection h with h
      exact ⟨[], by rw [List.nil_append, h, List.append_nil]⟩
    | cons c rest =>
      rw [sentenceSplitGo] at h
      by_cases hc : (isPySpace c && endsSentence acc) = true
      · rw [if_pos hc] at h
        cases hgo : sentenceSplitGo fuel [] (rest.dropWhile isPySpace) with
        | nil => exact absurd hgo (sentenceSplitGo_ne_nil _ _ _)
        | cons y ys =>
          rw [hgo, List.getLast?_cons_cons] at h
          obtain ⟨pre, hpre⟩ := ih [] (rest.dropWhile isPySpace) seg (by rw [hgo]; exact h)
          rw [List.reverse_nil, List.nil_append] at hpre
          obtain ⟨pre2, hpre2⟩ := dropWhile_suffix' isPySpace rest
          refine ⟨acc.reverse ++ c :: pre2 ++ pre, ?_⟩
          rw [List.append_assoc, List.append_assoc, hpre]
          rw [List.cons_append, hpre2]
      · rw [if_neg hc] at h
        obtain ⟨pre, hpre⟩ := ih (c :: acc) rest seg h
        rw [List.reverse_cons, List.append_assoc, List.singleton_append] at hpre
        exact ⟨pre, hpre⟩

lemma getOverlapText_suffix (co : Nat) (t : List Char) :
    ∃ pre, pre ++ getOverlapText co t = t := by
  unfold getOverlapText
  by_cases h : t.length ≤ co
  · rw [if_pos h]
    exact ⟨[], rfl⟩
  · rw [if_neg h]
    by_cases h2 : 1 < (sentenceSplit (t.drop (t.length - co))).length
    · rw [if_pos h2]
      cases hls : (sentenceSplit (t.drop (t.length - co))).getLast? with
      | none => exact ⟨t.take (t.length - co), List.take_append_drop _ _⟩
      | some lastSeg =>
        dsimp only
        by_cases hle : lastSeg.isEmpty = true
        · rw [if_pos hle]
          exact ⟨t.take (t.length - co), List.take_append_drop _ _⟩
        · rw [if_neg hle]
          obtain ⟨pre, hpre⟩ := sentenceSplitGo_last_suffix _ [] _ lastSeg hls
          rw [List.reverse_nil, List.nil_append] at hpre
          refine ⟨t.take (t.length - co) ++ pre, ?_⟩
          rw [List.append_assoc, hpre, List.take_append_drop]
    · rw [if_neg h2]
      exact ⟨t.take (t.length - co), List.take_append_drop _ _⟩

/-- How one emitted chunk relates to its successor in `_split_text_into_chunks`:
the earlier chunk `a` is the stripped form of some buffer, the later chunk is
the stripped form of the overlap text of that buffer followed by a space and
further sentences, and the overlap text is a suffix of the buffer. -/
def overlapChain (a b : List Char) : Prop :=
  ∃ buf rest, a = pyStrip buf ∧
    b = pyStrip (getOverlapText 100 buf ++ ' ' :: rest) ∧
    ∃ pre, pre ++ getOverlapText 100 buf = buf

/-- Link between the last emitted chunk and the current buffer. -/
def chunkLink (a buf : List Char) : Prop :=
  ∃ prevBuf rest, a = pyStrip prevBuf ∧
    buf = getOverlapText 100 prevBuf ++ ' ' :: rest

/-- Loop invariant behind C7's amended overlap property. -/
def overlapInv (st : ChunkAcc) : Prop :=
  List.Chain' overlapChain st.chunks ∧
  (∀ lc, st.chunks.getLast? = some lc → chunkLink lc st.buf)

lemma chain'_append_emitted (chunks : List (List Char)) (buf : List Char)
    (hch : List.Chain' overlapChain chunks)
    (hlink : ∀ lc, chunks.getLast? = some lc → chunkLink lc buf) :
    List.Chain' overlapChain (chunks ++ [pyStrip buf]) := by
  refine List.Chain'.append hch (List.chain'_singleton _) ?_
  intro x hx y hy
  have hy2 : pyStrip buf = y := by
    simpa using hy
  subst hy2
  obtain ⟨pb, rest, h1, h2⟩ := hlink x hx
  exact ⟨pb, rest, h1, by rw [h2], getOverlapText_suffix 100 pb⟩

lemma chunkStep_overlapInv (st : ChunkAcc) (sent : List Char)
    (hinv : overlapInv st) : overlapInv (chunkStep 800 100 st sent) := by
  simp only [chunkStep]
  by_cases h1 : (pyStrip sent).isEmpty = true
  · rw [if_pos h1]
    exact hinv
  · rw [if_neg h1]
    by_cases h2 : (decide (800 < st.buflen + (pyStrip sent).length)
        && !st.buf.isEmpty) = true
    · rw [if_pos h2]
      constructor
      · exact chain'_append_emitted st.chunks st.buf hinv.1 hinv.2
      · intro lc hlc
        have hlc2 : lc = pyStrip st.buf := by
          rw [List.getLast?_concat] at hlc
          injection hlc with hlc
          exact hlc.symm
        subst hlc2
        exact ⟨st.buf, pyStrip sent, rfl, rfl⟩
    · rw [if_neg h2]
      by_cases hbe : st.buf.isEmpty = true
      · rw [if_pos hbe]
        have hb : st.buf = [] := by
          cases hsb : st.buf with
          | nil => rfl
          | cons x xs => rw [hsb] at hbe; cases hbe
        refine ⟨hinv.1, ?_⟩
        intro lc hlc
        obtain ⟨pb, rest, -, habs⟩ := hinv.2 lc hlc
        rw [hb] at habs
        exact absurd habs.symm (by simp)
      · rw [if_neg hbe]
        refine ⟨hinv.1, ?_⟩
        intro lc hlc
        obtain ⟨pb, rest, hl1, hl2⟩ := hinv.2 lc hlc
        refine ⟨pb, rest ++ ' ' :: pyStrip sent, hl1, ?_⟩
        rw [hl2, List.append_assoc, List.cons_append]

lemma chunkFold_overlapInv :
    ∀ (L : List (List Char)) (st : ChunkAcc), overlapInv st →
      overlapInv (L.foldl (chunkStep 800 100) st) := by
  intro L
  induction L with
  | nil => intro st h; exact h
  | cons x xs ih =>
    intro st hinv
    rw [List.foldl_cons]
    exact ih _ (chunkStep_overlapInv st x hinv)

/-- C7 amended: for every text, consecutive chunks of
`_split_text_into_chunks` (default sizes) are linked by overlap seeding: the
later chunk is the stripped form of `_get_overlap_text` of the buffer whose
stripped form is the earlier chunk, followed by a space and the remaining
sentences, and that overlap text is a suffix of the buffer.  The shared
overlap can therefore be shorter than `min(overlap_size, len(earlier))`
when sentence snapping selects a short trailing sentence. -/
theorem c7_amended_overlap_seeded (text : List Char) :
    List.Chain' overlapChain (splitTextIntoChunks 800 100 text) := by
  simp only [splitTextIntoChunks]
  by_cases ht : text.isEmpty = true
  · rw [if_pos ht]
    exact List.chain'_nil
  · rw [if_neg ht]
    have hinv := chunkFold_overlapInv (sentenceSplit text) (ChunkAcc.mk [] [] 0)
      ⟨List.chain'_nil, fun lc hlc => by cases hlc⟩
    set st := (sentenceSplit text).foldl (chunkStep 800 100) (ChunkAcc.mk [] [] 0)
      with hst
    by_cases hb : (pyStrip st.buf).isEmpty = true
    · rw [if_pos hb]
      exact hinv.1
    · rw [if_neg hb]
      exact chain'_append_emitted st.chunks st.buf hinv.1 hinv.2

/-- A 901-character text of three sentences: 695 chars, 4 chars (`Bad.`),
200 chars.  The first emitted chunk is 700 characters and ends in `Bad.`;
the overlap window's trailing sentence is just `Bad.`, so the second chunk
starts with only those 4 characters of shared content. -/
def c7Text : List Char :=
  List.replicate 694 'a' ++ ('.' :: ' ' :: 'B' :: 'a' :: 'd' :: '.' :: ' ' :: [])
    ++ List.replicate 199 'c' ++ ['.']

set_option maxHeartbeats 4000000 in
set_option maxRecDepth 10000 in
/-- C7 counterexample: `c7Text` yields exactly two consecutive chunks from
one region, and the longest string that is simultaneously a suffix of the
earlier chunk and a prefix of the later chunk has length 4 — strictly less
than `min(overlap_size, len(earlier_chunk)) = min(100, 700)`, refuting the
claimed lower bound on shared content. -/
theorem c7_counterexample :
    (splitTextIntoChunks 800 100 c7Text).length = 2 ∧
    sharedOverlapLen ((splitTextIntoChunks 800 100 c7Text).getD 0 [])
        ((splitTextIntoChunks 800 100 c7Text).getD 1 [])
      < min 100 ((splitTextIntoChunks 800 100 c7Text).getD 0 []).length := by
  decide
